import Mathlib

/-!
Verification of the Topos/Strata document-governance core against its
specification.  The repository ships the design documents (README.md,
docs/ARCHITECTURE.md) and the marketing front end; the Python backend
services (`backend/app/services/*.py`, `backend/app/workers/*.py`) are not
part of the source tree, so those components are modelled here directly
from the specification text and the claims are settled against the models.
The front-end components (`Footer`, the root layout's `appUrl`) are
embedded from the TypeScript source.
-/

namespace Topos

/-- Sensitivity finding types, from the data model (`SensitivityFinding.type`). -/
inductive FindingType
  | PERSONAL_DATA
  | FINANCIAL_DATA
  | SECRETS
deriving DecidableEq, Repr, Fintype

/-- Exposure / sensitivity levels. -/
inductive Level
  | LOW
  | MEDIUM
  | HIGH
deriving DecidableEq, Repr

/-- Numeric rank of a level, used for the policy content ceiling. -/
def Level.rank : Level → Nat
  | .LOW => 0
  | .MEDIUM => 1
  | .HIGH => 2

/-- Sensitivity finding over a chunk: a type, a level and a character span. -/
structure Finding where
  ftype : FindingType
  level : Level
  start : Nat
  len : Nat
deriving DecidableEq, Repr

/-- Modelled from the spec: `backend/app/services/exposure.py` is not in the
source tree.  Spec 4.5: principal_breadth_score = 20 if principal_count ≤ 10,
50 if ≤ 100, else 80. -/
def principal_breadth_score (principal_count : Nat) : Nat :=
  if principal_count ≤ 10 then 20
  else if principal_count ≤ 100 then 50
  else 80

/-- Modelled from the spec: broad_group_bonus = +20 if any principal is a
known broad group. -/
def broad_group_bonus (has_broad_group_access : Bool) : Nat :=
  if has_broad_group_access then 20 else 0

/-- Modelled from the spec: sensitivity_score = 80 if any SECRETS or
FINANCIAL_DATA finding exists, else 60 if any PERSONAL_DATA finding exists,
else 0. -/
def sensitivity_score (findings : List Finding) : Nat :=
  if findings.any fun f =>
      decide (f.ftype = FindingType.SECRETS) || decide (f.ftype = FindingType.FINANCIAL_DATA) then 80
  else if findings.any fun f => decide (f.ftype = FindingType.PERSONAL_DATA) then 60
  else 0

/-- Modelled from the spec: `score = min(100, sensitivity_score +
principal_breadth_score + broad_group_bonus)`. -/
def exposure_score (principal_count : Nat) (has_broad_group_access : Bool)
    (findings : List Finding) : Nat :=
  min 100 (sensitivity_score findings + principal_breadth_score principal_count
    + broad_group_bonus has_broad_group_access)

/-- Modelled from the spec: level thresholds LOW 0-39, MEDIUM 40-69, HIGH 70-100. -/
def exposure_level (score : Nat) : Level :=
  if score ≤ 39 then .LOW
  else if score ≤ 69 then .MEDIUM
  else .HIGH

/-- Modelled from the spec: ExposureScorer contract
`score(principal_count, has_broad_group_access, findings) → (level, score)`. -/
def ExposureScorer (principal_count : Nat) (has_broad_group_access : Bool)
    (findings : List Finding) : Level × Nat :=
  (exposure_level (exposure_score principal_count has_broad_group_access findings),
   exposure_score principal_count has_broad_group_access findings)

/-- Modelled from the spec: Luhn digit doubling — double the digit and
subtract 9 when the result exceeds 9. -/
def luhn_double (d : Nat) : Nat :=
  if 9 < 2 * d then 2 * d - 9 else 2 * d

/-- Modelled from the spec: alternating Luhn sum over digits listed from the
rightmost digit leftwards; the flag is true when the current digit is doubled. -/
def luhn_sum_rev : Bool → List Nat → Nat
  | _, [] => 0
  | false, d :: ds => d + luhn_sum_rev true ds
  | true, d :: ds => luhn_double d + luhn_sum_rev false ds

/-- Modelled from the spec: Luhn checksum validity of a digit sequence given
most-significant digit first. -/
def luhn_valid (digits : List Nat) : Bool :=
  decide (luhn_sum_rev false digits.reverse % 10 = 0)

/-- Modelled from the spec: `backend/app/services/sensitivity.py` is not in
the source tree.  A credit-card-shaped 16-digit sequence yields a
FINANCIAL_DATA finding of level HIGH exactly when it passes the Luhn
checksum (spec 4.4). -/
def detect_financial (digits : List Nat) : List (FindingType × Level) :=
  if digits.length = 16 && luhn_valid digits then
    [(FindingType.FINANCIAL_DATA, Level.HIGH)]
  else []

/-- Document types, from the data model. -/
inductive DocType
  | CONTRACT
  | POLICY
  | RFC
  | OTHER
deriving DecidableEq, Repr

/-- Modelled from the spec: policy configuration shape (spec 6) — visibility
rules, redaction rules and the content ceiling; the policy engine source
`backend/app/services/policy_engine.py` is not in the source tree. -/
structure Policy where
  includeDocTypes : List DocType
  excludeDocTypes : List DocType
  includePaths : List (List Char)
  excludePaths : List (List Char)
  maskPii : Bool
  maskSecrets : Bool
  useSummaries : Bool
  maxSensitivityLevel : Level
deriving DecidableEq, Repr

/-- Chunk as seen by the read path: document type, file path, text, optional
summary, sensitivity findings and the document exposure level. -/
structure Chunk where
  docType : DocType
  path : List Char
  text : List Char
  summary : Option (List Char)
  findings : List Finding
  exposure : Level
deriving DecidableEq, Repr

/-- Modelled from the spec: a path pattern matches when it occurs within the
file path (the example patterns are path fragments such as "/public/"). -/
def path_matches (pat path : List Char) : Bool :=
  decide (pat <:+: path)

/-- Modelled from the spec: single-policy visibility (spec 4.8 step 1) and
content ceiling (step 2) — the policy allows the chunk when no check blocks. -/
def policy_allows (p : Policy) (c : Chunk) : Bool :=
  !(decide (c.docType ∈ p.excludeDocTypes))
  && (p.includeDocTypes.isEmpty || decide (c.docType ∈ p.includeDocTypes))
  && !(p.excludePaths.any fun pat => path_matches pat c.path)
  && (p.includePaths.isEmpty || p.includePaths.any fun pat => path_matches pat c.path)
  && decide (c.exposure.rank ≤ p.maxSensitivityLevel.rank)

/-- Redaction placeholder written over a masked span. -/
def mask_label : FindingType → List Char
  | .PERSONAL_DATA =>
      ['[', 'P', 'E', 'R', 'S', 'O', 'N', 'A', 'L', '_', 'D', 'A', 'T', 'A', ']']
  | .FINANCIAL_DATA =>
      ['[', 'F', 'I', 'N', 'A', 'N', 'C', 'I', 'A', 'L', '_', 'D', 'A', 'T', 'A', ']']
  | .SECRETS =>
      ['[', 'S', 'E', 'C', 'R', 'E', 'T', 'S', ']']

/-- Modelled from the spec: the findings whose spans are masked under the
given redaction flags — PII spans under mask_pii, secret spans under
mask_secrets. -/
def masked_findings (mPii mSec : Bool) (fs : List Finding) : List Finding :=
  fs.filter fun f =>
    (mPii && decide (f.ftype = FindingType.PERSONAL_DATA))
    || (mSec && decide (f.ftype = FindingType.SECRETS))

/-- Modelled from the spec: rebuild the chunk text from the cursor onwards,
replacing each finding span with its mask label (spans taken in order). -/
def redact_from (text : List Char) (pos : Nat) : List Finding → List Char
  | [] => text.drop pos
  | f :: rest =>
      (text.drop pos).take (f.start - pos) ++ mask_label f.ftype
        ++ redact_from text (f.start + f.len) rest

/-- Modelled from the spec: redacted view of a chunk text — every masked span
replaced with its label. -/
def redact_text (text : List Char) (fs : List Finding) : List Char :=
  redact_from text 0 fs

/-- View types returned by the policy engine. -/
inductive ViewType
  | raw
  | redacted
  | summary
deriving DecidableEq, Repr

/-- Block reasons surfaced by the policy engine. -/
inductive BlockReason
  | NO_POLICY_ASSIGNED
  | NOT_VISIBLE
deriving DecidableEq, Repr

/-- Outcome of a per-chunk policy evaluation. -/
inductive Decision
  | blocked (reason : BlockReason)
  | allowed (view : ViewType) (content : List Char)
deriving DecidableEq, Repr

/-- True when the decision grants access. -/
def Decision.isAllowed : Decision → Bool
  | .allowed _ _ => true
  | .blocked _ => false

/-- View type of an allowed decision. -/
def Decision.viewType : Decision → Option ViewType
  | .allowed v _ => some v
  | .blocked _ => none

/-- Text content of an allowed decision. -/
def Decision.content : Decision → Option (List Char)
  | .allowed _ t => some t
  | .blocked _ => none

/-- Policies of the assigned set that allow the chunk. -/
def allowing_policies (pols : List Policy) (c : Chunk) : List Policy :=
  pols.filter fun p => policy_allows p c

/-- Modelled from the spec: multi-policy evaluation of one chunk access
(spec 4.8, 7) — default-deny with NO_POLICY_ASSIGNED when no policy is
assigned, visibility as the union of allowances, redaction as the strictest
applicable (summary first, then redaction when any allowing policy masks and
the chunk has matching findings, else raw). -/
def evaluate_access (pols : List Policy) (c : Chunk) : Decision :=
  if pols.isEmpty then .blocked .NO_POLICY_ASSIGNED
  else if (allowing_policies pols c).isEmpty then .blocked .NOT_VISIBLE
  else if ((allowing_policies pols c).any fun p => p.useSummaries) && c.summary.isSome then
    .allowed .summary (c.summary.getD [])
  else if (masked_findings ((allowing_policies pols c).any fun p => p.maskPii)
      ((allowing_policies pols c).any fun p => p.maskSecrets) c.findings).isEmpty then
    .allowed .raw c.text
  else
    .allowed .redacted (redact_text c.text
      (masked_findings ((allowing_policies pols c).any fun p => p.maskPii)
        ((allowing_policies pols c).any fun p => p.maskSecrets) c.findings))

/-- Job statuses, from the data model. -/
inductive JobStatus
  | pending
  | claimed (worker : Nat)
  | done
  | failed
deriving DecidableEq, Repr

/-- Queue state: status of each job id. -/
def QState := Nat → JobStatus

/-- Modelled from the spec: `backend/app/workers/base.py` and the queue
implementation are not in the source tree.  A claim atomically selects one
PENDING job and marks it CLAIMED by the worker (spec 4.1, 5); an execution is
an arbitrary interleaving of such atomic claims by any set of workers.
Each trace event records (worker, job). -/
inductive ClaimExec : QState → List (Nat × Nat) → QState → Prop
  | nil (s : QState) : ClaimExec s [] s
  | step (s : QState) (w j : Nat) (evs : List (Nat × Nat)) (s2 : QState) :
      s j = JobStatus.pending →
      ClaimExec (fun k => if k = j then JobStatus.claimed w else s k) evs s2 →
      ClaimExec s ((w, j) :: evs) s2

/-- Number of pending jobs of the domain in a state. -/
def pending_count (s : QState) (dom : List Nat) : Nat :=
  (dom.filter fun j => decide (s j = JobStatus.pending)).length

/-- Initial queue state of the C5 witness: jobs 0 and 1 pending. -/
def qsInit : QState := fun j => if j < 2 then JobStatus.pending else JobStatus.done

/-- Final queue state of the C5 witness: both jobs claimed by workers 5 and 7. -/
def qsFinal : QState :=
  fun k => if k = 1 then JobStatus.claimed 7
    else if k = 0 then JobStatus.claimed 5 else qsInit k

/-- Document row of one file lineage: id, version number, weak back-reference
to the previous version, content hash. -/
structure Doc where
  id : Nat
  versionNumber : Nat
  previousVersionId : Option Nat
  contentHash : Nat
deriving DecidableEq, Repr

/-- Chain condition for the documents following `d`: each next version has
the next version number and points back at its immediate predecessor. -/
def chain_from (d : Doc) : List Doc → Prop
  | [] => True
  | e :: rest =>
      e.versionNumber = d.versionNumber + 1
      ∧ e.previousVersionId = some d.id
      ∧ chain_from e rest

/-- Version-chain invariant of a file lineage, oldest first: the first
version has no back-reference and version number 1, and each later version
extends its predecessor. -/
def chain_ok : List Doc → Prop
  | [] => True
  | d :: rest => d.previousVersionId = none ∧ d.versionNumber = 1 ∧ chain_from d rest

/-- Modelled from the spec: ingestion-side version creation is not in the
source tree (`backend/app/api/ingest.py`, extraction worker).  An ingestion
event creates a new Document only when its content hash differs from the
current latest version; the new row reads the latest version, takes the next
version number and points back at it (spec 3, 6). -/
def ingest_version (lineage : List Doc) (newId : Nat) (hash : Nat) : List Doc :=
  match lineage.getLast? with
  | none => [⟨newId, 1, none, hash⟩]
  | some latest =>
      if latest.contentHash = hash then lineage
      else lineage
        ++ [⟨newId, latest.versionNumber + 1, some latest.id, hash⟩]

/-- Footer render outcomes, embedded from
`apps/web/src/lib/react/components/ui/logo.tsx`: the full home-page footer or
the minimal footer with its navigation link targets. -/
structure FooterRender where
  isFull : Bool
  links : List String
deriving DecidableEq, Repr

/-- Footer component, embedded from the TypeScript source: admin pages render
nothing, the home page renders the full footer, every other page renders the
minimal footer with the Privacy and Terms links. -/
def Footer (pathname : String) : Option FooterRender :=
  if pathname.startsWith "/admin" then none
  else if pathname = "/" then some ⟨true, []⟩
  else some ⟨false, ["/privacy", "/terms"]⟩

/-- Root layout metadata base URL, embedded from
`apps/web/src/app/layout.tsx`: `process.env.NEXT_PUBLIC_APP_URL ??
(process.env.VERCEL_URL ? "https://" + VERCEL_URL : "http://localhost:3000")`.
An unset environment variable is `none`; JavaScript nullish coalescing keeps
any set NEXT_PUBLIC_APP_URL, while the VERCEL_URL branch tests truthiness, so
an empty string falls through to the localhost default. -/
def appUrl (nextPublicAppUrl : Option String) (vercelUrl : Option String) : String :=
  match nextPublicAppUrl with
  | some u => u
  | none =>
      match vercelUrl with
      | some v => if v = "" then "http://localhost:3000" else "https://" ++ v
      | none => "http://localhost:3000"

/-- Text of a finding's span within a chunk text. -/
def span_text (text : List Char) (f : Finding) : List Char :=
  (text.drop f.start).take f.len

/-- Occurrence of `s` in `t` at position `i`. -/
def occurs_at (t s : List Char) (i : Nat) : Prop :=
  i + s.length ≤ t.length ∧ (t.drop i).take s.length = s

instance occurs_at_dec (t s : List Char) (i : Nat) : Decidable (occurs_at t s i) :=
  inferInstanceAs (Decidable (_ ∧ _))

/-- Well-formedness of finding spans over a text from a cursor position:
spans are in order, disjoint and within the text. -/
def spans_wf (text : List Char) : Nat → List Finding → Bool
  | _, [] => true
  | pos, f :: rest =>
      decide (pos ≤ f.start) && decide (f.start + f.len ≤ text.length)
        && spans_wf text (f.start + f.len) rest

/-- Concrete secret text used in the C4 scenarios. -/
def c4_secret : List Char := ['s', 'k', '0', '0', '0', '0', '0', '0', '0', '0']

/-- Chunk whose whole text is one flagged secret, with an attacker-relevant
summary equal to the secret. -/
def c4_sum_chunk : Chunk :=
  ⟨DocType.OTHER, [], c4_secret, some c4_secret,
    [⟨FindingType.SECRETS, Level.HIGH, 0, 10⟩], Level.LOW⟩

/-- Policy masking secrets but also requesting summaries. -/
def c4_sum_policy : Policy := ⟨[], [], [], [], false, true, true, Level.HIGH⟩

/-- Chunk whose whole text is one flagged secret, without a summary. -/
def c4_chunk : Chunk :=
  ⟨DocType.OTHER, [], c4_secret, none,
    [⟨FindingType.SECRETS, Level.HIGH, 0, 10⟩], Level.LOW⟩

/-- Policy masking secrets, not using summaries. -/
def c4_policy : Policy := ⟨[], [], [], [], false, true, false, Level.HIGH⟩

/-- Level thresholds as an iff over the numeric score, for scores within the
bounded range. -/
lemma exposure_level_iff (s : Nat) (hs : s ≤ 100) :
    (exposure_level s = Level.LOW ↔ s ≤ 39)
    ∧ (exposure_level s = Level.MEDIUM ↔ 40 ≤ s ∧ s ≤ 69)
    ∧ (exposure_level s = Level.HIGH ↔ 70 ≤ s ∧ s ≤ 100) := by
  unfold exposure_level
  by_cases h1 : s ≤ 39 <;> by_cases h2 : s ≤ 69 <;> simp [h1, h2] <;> omega

/-- C1: the ExposureScorer is a pure deterministic function whose score is
`min(100, sensitivity_score + principal_breadth_score + broad_group_bonus)`
with breadth 20/50/80 at the 10 and 100 thresholds, bonus 20 for broad-group
access, sensitivity 80 for SECRETS or FINANCIAL_DATA, 60 for PERSONAL_DATA,
else 0; and the level is LOW for 0-39, MEDIUM for 40-69, HIGH for 70-100. -/
theorem exposure_scorer_formula (n : Nat) (b : Bool) (fs : List Finding) :
    (ExposureScorer n b fs).2 =
      min 100
        ((if fs.any fun f =>
            decide (f.ftype = FindingType.SECRETS)
              || decide (f.ftype = FindingType.FINANCIAL_DATA) then 80
          else if fs.any fun f => decide (f.ftype = FindingType.PERSONAL_DATA) then 60
          else 0)
          + (if n ≤ 10 then 20 else if n ≤ 100 then 50 else 80)
          + (if b then 20 else 0))
    ∧ ((ExposureScorer n b fs).1 = Level.LOW ↔ (ExposureScorer n b fs).2 ≤ 39)
    ∧ ((ExposureScorer n b fs).1 = Level.MEDIUM ↔
        40 ≤ (ExposureScorer n b fs).2 ∧ (ExposureScorer n b fs).2 ≤ 69)
    ∧ ((ExposureScorer n b fs).1 = Level.HIGH ↔
        70 ≤ (ExposureScorer n b fs).2 ∧ (ExposureScorer n b fs).2 ≤ 100) := by
  have hs : (ExposureScorer n b fs).2 ≤ 100 := Nat.min_le_left _ _
  obtain ⟨h1, h2, h3⟩ := exposure_level_iff (exposure_score n b fs) hs
  exact ⟨rfl, h1, h2, h3⟩

/-- C6: the ExposureScorer is monotonic — adding a SECRETS finding never
decreases the score, and increasing principal_count (in particular across the
10 and 100 breadth thresholds) never decreases the score. -/
theorem exposure_scorer_monotone :
    (∀ (n : Nat) (b : Bool) (fs : List Finding) (lv : Level) (s l : Nat),
      (ExposureScorer n b fs).2
        ≤ (ExposureScorer n b (⟨FindingType.SECRETS, lv, s, l⟩ :: fs)).2)
    ∧ (∀ (n₁ n₂ : Nat) (b : Bool) (fs : List Finding), n₁ ≤ n₂ →
      (ExposureScorer n₁ b fs).2 ≤ (ExposureScorer n₂ b fs).2) := by
  constructor
  · intro n b fs lv s l
    have h1 : sensitivity_score fs ≤ 80 := by
      unfold sensitivity_score; split_ifs <;> omega
    have h2 : sensitivity_score (⟨FindingType.SECRETS, lv, s, l⟩ :: fs) = 80 := by
      simp [sensitivity_score]
    show min 100 _ ≤ min 100 _
    rw [h2]
    exact min_le_min (le_refl 100) (by omega)
  · intro n₁ n₂ b fs h
    have hb : principal_breadth_score n₁ ≤ principal_breadth_score n₂ := by
      unfold principal_breadth_score; split_ifs <;> omega
    exact min_le_min (le_refl 100) (by omega)

/-- C6 witness: the monotonicity theorem applied at concrete inputs. -/
theorem exposure_scorer_monotone_witness :
    (3 : Nat) ≤ 11 ∧ (ExposureScorer 3 false []).2 ≤ (ExposureScorer 11 false []).2 :=
  ⟨by decide, exposure_scorer_monotone.2 3 11 false [] (by decide)⟩

/-- C7: a 16-digit sequence produces a FINANCIAL_DATA finding (level HIGH)
exactly when it passes the Luhn checksum; the valid test card number
4111111111111111 produces one and 4111111111111112 does not. -/
theorem luhn_financial_detection :
    (∀ digits : List Nat, digits.length = 16 →
      (luhn_valid digits = false → detect_financial digits = [])
      ∧ (luhn_valid digits = true →
          detect_financial digits = [(FindingType.FINANCIAL_DATA, Level.HIGH)]))
    ∧ detect_financial [4, 1, 1, 1, 1, 1, 1, 1, 1, 1, 1, 1, 1, 1, 1, 1]
        = [(FindingType.FINANCIAL_DATA, Level.HIGH)]
    ∧ detect_financial [4, 1, 1, 1, 1, 1, 1, 1, 1, 1, 1, 1, 1, 1, 1, 2] = [] := by
  refine ⟨?_, by decide, by decide⟩
  intro ds h
  constructor <;> intro hv <;> simp [detect_financial, h, hv]

/-- C7 witness: the Luhn theorem applied to a concrete failing 16-digit
sequence. -/
theorem luhn_financial_detection_witness :
    ([4, 1, 1, 1, 1, 1, 1, 1, 1, 1, 1, 1, 1, 1, 1, 2] : List Nat).length = 16
    ∧ detect_financial [4, 1, 1, 1, 1, 1, 1, 1, 1, 1, 1, 1, 1, 1, 1, 2] = [] :=
  ⟨by decide,
   (luhn_financial_detection.1 [4, 1, 1, 1, 1, 1, 1, 1, 1, 1, 1, 1, 1, 1, 1, 2]
     (by decide)).1 (by decide)⟩

/-- C3: with no policy assigned, evaluation is BLOCKED with reason
NO_POLICY_ASSIGNED and never default-allows. -/
theorem no_policy_default_deny (c : Chunk) :
    evaluate_access [] c = Decision.blocked BlockReason.NO_POLICY_ASSIGNED
    ∧ (evaluate_access [] c).isAllowed = false :=
  ⟨rfl, rfl⟩

/-- Membership in the allowing set. -/
lemma mem_allowing_policies {pols : List Policy} {c : Chunk} {p : Policy}
    (hp : p ∈ pols) (h : policy_allows p c = true) : p ∈ allowing_policies pols c :=
  List.mem_filter.2 ⟨hp, h⟩

/-- C2: visibility is the union of allowances — the chunk is visible iff some
assigned policy allows it — and redaction is the strictest applicable: when
any allowing policy sets mask_pii or mask_secrets and the chunk has matching
findings, the returned view is never raw. -/
theorem multi_policy_union_strictest (pols : List Policy) (c : Chunk) :
    ((evaluate_access pols c).isAllowed = true ↔ ∃ p ∈ pols, policy_allows p c = true)
    ∧ (∀ p ∈ pols, policy_allows p c = true →
        ((p.maskPii = true ∧ ∃ f ∈ c.findings, f.ftype = FindingType.PERSONAL_DATA)
          ∨ (p.maskSecrets = true ∧ ∃ f ∈ c.findings, f.ftype = FindingType.SECRETS)) →
        (evaluate_access pols c).viewType ≠ some ViewType.raw) := by
  constructor
  · by_cases hp : pols.isEmpty
    · have : pols = [] := by simpa using hp
      subst this
      simp [evaluate_access, Decision.isAllowed]
    · have hp' : pols.isEmpty = false := Bool.eq_false_iff.mpr hp
      by_cases ha : (allowing_policies pols c).isEmpty
      · have hnil : allowing_policies pols c = [] := by simpa using ha
        have h0 : ∀ q ∈ pols, policy_allows q c = true → False := by
          intro q hq hall
          have hm := mem_allowing_policies hq hall
          rw [hnil] at hm
          cases hm
        simp only [evaluate_access, hp', ha, Bool.false_eq_true, if_false, if_true]
        refine iff_of_false (by simp [Decision.isAllowed]) ?_
        rintro ⟨q, hq, hall⟩
        exact h0 q hq hall
      · have ha' : (allowing_policies pols c).isEmpty = false := Bool.eq_false_iff.mpr ha
        have hex : ∃ p ∈ pols, policy_allows p c = true := by
          have hne : allowing_policies pols c ≠ [] := by
            intro h
            rw [h] at ha'
            cases ha'
          obtain ⟨q, hq⟩ := List.exists_mem_of_ne_nil _ hne
          exact ⟨q, (List.mem_filter.1 hq).1, (List.mem_filter.1 hq).2⟩
        simp only [evaluate_access, hp', ha', Bool.false_eq_true, if_false]
        refine iff_of_true ?_ hex
        split
        · rfl
        · split <;> rfl
  · intro p hp hallow hmask
    have hpa : p ∈ allowing_policies pols c := mem_allowing_policies hp hallow
    have hne : pols.isEmpty = false := by
      cases pols with
      | nil => cases hp
      | cons x xs => rfl
    have hane : (allowing_policies pols c).isEmpty = false := by
      cases hh : allowing_policies pols c with
      | nil => rw [hh] at hpa; cases hpa
      | cons a as => rfl
    have hmne : (masked_findings ((allowing_policies pols c).any fun q => q.maskPii)
        ((allowing_policies pols c).any fun q => q.maskSecrets) c.findings).isEmpty
          = false := by
      have hmem : ∃ f, f ∈ masked_findings
          ((allowing_policies pols c).any fun q => q.maskPii)
          ((allowing_policies pols c).any fun q => q.maskSecrets) c.findings := by
        rcases hmask with ⟨hpii, f, hf, hft⟩ | ⟨hsec, f, hf, hft⟩
        · have hm : ((allowing_policies pols c).any fun q => q.maskPii) = true :=
            List.any_eq_true.2 ⟨p, hpa, hpii⟩
          exact ⟨f, List.mem_filter.2 ⟨hf, by simp [hm, hft]⟩⟩
        · have hm : ((allowing_policies pols c).any fun q => q.maskSecrets) = true :=
            List.any_eq_true.2 ⟨p, hpa, hsec⟩
          exact ⟨f, List.mem_filter.2 ⟨hf, by simp [hm, hft]⟩⟩
      obtain ⟨f, hf⟩ := hmem
      cases hh : masked_findings ((allowing_policies pols c).any fun q => q.maskPii)
          ((allowing_policies pols c).any fun q => q.maskSecrets) c.findings with
      | nil => rw [hh] at hf; cases hf
      | cons a as => rfl
    simp only [evaluate_access, hne, hane, hmne, Bool.false_eq_true, if_false]
    split
    · simp [Decision.viewType]
    · simp [Decision.viewType]

/-- C2 witness: the composition theorem applied to a two-policy agent and a
chunk with a PERSONAL_DATA finding. -/
theorem multi_policy_union_strictest_witness :
    (evaluate_access
        [⟨[], [], [], [], false, false, false, Level.HIGH⟩,
         ⟨[], [], [], [], true, false, false, Level.HIGH⟩]
        ⟨DocType.OTHER, [], ['a'], none,
          [⟨FindingType.PERSONAL_DATA, Level.MEDIUM, 0, 1⟩], Level.LOW⟩).viewType
      ≠ some ViewType.raw :=
  (multi_policy_union_strictest _ _).2
    ⟨[], [], [], [], true, false, false, Level.HIGH⟩
    (by decide)
    (by decide)
    (Or.inl ⟨rfl, ⟨FindingType.PERSONAL_DATA, Level.MEDIUM, 0, 1⟩, by decide, rfl⟩)

/-- A job that is not pending is never claimed later in an execution. -/
lemma not_pending_not_claimed {s : QState} {evs : List (Nat × Nat)} {s2 : QState}
    (h : ClaimExec s evs s2) :
    ∀ j, s j ≠ JobStatus.pending → j ∉ evs.map Prod.snd := by
  induction h with
  | nil s => intro j _ hj; cases hj
  | step s w j evs s2 hpend _ ih =>
      intro i hi hmem
      simp only [List.map_cons, List.mem_cons] at hmem
      rcases hmem with rfl | hmem
      · exact hi hpend
      · refine ih i ?_ hmem
        by_cases hij : i = j
        · subst hij; exact absurd hpend hi
        · simpa [hij] using hi

/-- No job id appears twice in an execution trace. -/
lemma claim_trace_nodup {s : QState} {evs : List (Nat × Nat)} {s2 : QState}
    (h : ClaimExec s evs s2) : (evs.map Prod.snd).Nodup := by
  induction h with
  | nil s => exact List.nodup_nil
  | step s w j evs s2 hpend hrest ih =>
      simp only [List.map_cons, List.nodup_cons]
      refine ⟨?_, ih⟩
      exact not_pending_not_claimed hrest j (by simp)

/-- Claiming one pending job of the domain decreases the pending count by
exactly one. -/
lemma pending_count_update {dom : List Nat} (hnd : dom.Nodup) (s : QState) (w j : Nat)
    (hj : j ∈ dom) (hpend : s j = JobStatus.pending) :
    pending_count (fun k => if k = j then JobStatus.claimed w else s k) dom + 1
      = pending_count s dom := by
  induction dom with
  | nil => cases hj
  | cons x xs ih =>
      simp only [List.nodup_cons] at hnd
      simp only [List.mem_cons] at hj
      by_cases hxj : x = j
      · subst hxj
        have hnot : x ∉ xs := hnd.1
        have hfil : (xs.filter fun k =>
            decide ((if k = x then JobStatus.claimed w else s k) = JobStatus.pending))
              = xs.filter fun k => decide (s k = JobStatus.pending) := by
          refine List.filter_congr ?_
          intro k hk
          have hkx : k ≠ x := fun h => hnot (h ▸ hk)
          simp [hkx]
        simp only [pending_count, List.filter_cons, hfil]
        simp [hpend]
      · have hj2 : j ∈ xs := by
          rcases hj with h | h
          · exact absurd h.symm hxj
          · exact h
        have := ih hnd.2 hj2
        simp only [pending_count, List.filter_cons] at this ⊢
        by_cases hx : s x = JobStatus.pending <;> simp [hx, hxj] at this ⊢ <;> omega

/-- Every claim consumes one pending job of the domain: the trace length plus
the remaining pending count equals the initial pending count. -/
lemma claim_trace_length {s : QState} {evs : List (Nat × Nat)} {s2 : QState}
    (h : ClaimExec s evs s2) (dom : List Nat) (hnd : dom.Nodup)
    (hdom : ∀ j, s j = JobStatus.pending → j ∈ dom) :
    evs.length + pending_count s2 dom = pending_count s dom := by
  induction h with
  | nil s => simp
  | step s w j evs s2 hpend hrest ih =>
      have hj : j ∈ dom := hdom j hpend
      have hdom2 : ∀ i, (fun k => if k = j then JobStatus.claimed w else s k) i
          = JobStatus.pending → i ∈ dom := by
        intro i hi
        by_cases hij : i = j
        · exact hij ▸ hj
        · exact hdom i (by simpa [hij] using hi)
      have := ih hdom2
      have hcount := pending_count_update hnd s w j hj hpend
      simp only [List.length_cons]
      omega

/-- C5: queue claim exclusivity — in any interleaved execution of atomic
claims by any number of workers, no job is claimed twice, and when the
execution ends with no pending job left, the number of claims equals the
initial number of pending jobs. -/
theorem queue_claim_exclusive (s : QState) (dom : List Nat) (evs : List (Nat × Nat))
    (s2 : QState) (hnd : dom.Nodup) (hdom : ∀ j, s j = JobStatus.pending → j ∈ dom)
    (h : ClaimExec s evs s2) :
    (evs.map Prod.snd).Nodup
    ∧ ((∀ j, s2 j ≠ JobStatus.pending) → evs.length = pending_count s dom) := by
  refine ⟨claim_trace_nodup h, fun hfin => ?_⟩
  have hlen := claim_trace_length h dom hnd hdom
  have hzero : pending_count s2 dom = 0 := by
    simp only [pending_count, List.length_eq_zero]
    rw [List.filter_eq_nil_iff]
    intro j _
    simp [hfin j]
  omega

/-- C5 witness: two concurrent workers claim two pending jobs — both claims
succeed, no job is claimed twice, and exactly two claims happen in total. -/
theorem queue_claim_exclusive_witness :
    ([(5, 0), (7, 1)].map (Prod.snd (α := Nat))).Nodup
    ∧ [(5, 0), (7, 1)].length = pending_count qsInit [0, 1] := by
  have hexec : ClaimExec qsInit [(5, 0), (7, 1)] qsFinal := by
    refine ClaimExec.step _ 5 0 _ _ (by rfl) ?_
    refine ClaimExec.step _ 7 1 _ _ (by rfl) ?_
    have : qsFinal = fun k => if k = 1 then JobStatus.claimed 7
        else if k = 0 then JobStatus.claimed 5 else qsInit k := rfl
    rw [this]
    exact ClaimExec.nil _
  have h := queue_claim_exclusive qsInit [0, 1] [(5, 0), (7, 1)] qsFinal
    (by decide)
    (by
      intro j hj
      simp only [qsInit] at hj
      split at hj
      · simp only [List.mem_cons]
        omega
      · cases hj)
    hexec
  refine ⟨h.1, h.2 ?_⟩
  intro j
  simp only [qsFinal, qsInit]
  split
  · simp
  · split
    · simp
    · split
      · exfalso
        omega
      · simp

/-- Appending the successor of the last element preserves the chain
condition. -/
lemma chain_from_append (d : Doc) (rest : List Doc) (L new : Doc) :
    chain_from d rest →
    (d :: rest).getLast? = some L →
    new.versionNumber = L.versionNumber + 1 →
    new.previousVersionId = some L.id →
    chain_from d (rest ++ [new]) := by
  induction rest generalizing d with
  | nil =>
      intro _ hl hv hp
      have : d = L := by simpa using hl
      subst this
      exact ⟨hv, hp, trivial⟩
  | cons e rest ih =>
      intro hc hl hv hp
      obtain ⟨h1, h2, h3⟩ := hc
      refine ⟨h1, h2, ?_⟩
      refine ih e h3 ?_ hv hp
      rw [← hl]
      exact List.getLast?_cons_cons.symm

/-- Preservation: ingesting an event keeps the version-chain invariant. -/
lemma chain_ok_ingest (l : List Doc) (nid hash : Nat) (hok : chain_ok l) :
    chain_ok (ingest_version l nid hash) := by
  cases hl : l.getLast? with
  | none =>
      have : l = [] := by simpa using hl
      subst this
      exact ⟨rfl, rfl, trivial⟩
  | some L =>
      simp only [ingest_version, hl]
      split
      · exact hok
      · cases l with
        | nil => simp at hl
        | cons d rest =>
            obtain ⟨h1, h2, h3⟩ := hok
            simp only [List.cons_append]
            exact ⟨h1, h2, chain_from_append d rest L _ h3 hl rfl rfl⟩

/-- Later chain members have strictly larger version numbers. -/
lemma chain_from_lt (d : Doc) (rest : List Doc) (h : chain_from d rest) :
    ∀ e ∈ rest, d.versionNumber < e.versionNumber := by
  induction rest generalizing d with
  | nil =>
      intro e he
      cases he
  | cons e rest ih =>
      intro x hx
      obtain ⟨h1, h2, h3⟩ := h
      rcases List.mem_cons.1 hx with rfl | hx2
      · omega
      · have := ih e h3 x hx2
        omega

/-- A chain is pairwise strictly increasing in version number. -/
lemma chain_from_pairwise (d : Doc) (rest : List Doc) (h : chain_from d rest) :
    (d :: rest).Pairwise fun a b => a.versionNumber < b.versionNumber := by
  induction rest generalizing d with
  | nil => simp
  | cons e rest ih =>
      obtain ⟨h1, h2, h3⟩ := h
      refine List.Pairwise.cons ?_ (ih e h3)
      intro x hx
      rcases List.mem_cons.1 hx with rfl | hx2
      · omega
      · have := chain_from_lt e rest h3 x hx2
        omega

/-- C8: version numbers strictly increase within a file lineage, each
previous_version_id points at the immediately preceding version (absent for
the first), every version-creating ingestion preserves the invariant, and
re-ingesting a file three times with distinct content hashes yields a chain
of length 3 with version numbers 1, 2, 3. -/
theorem version_chain_invariant :
    (∀ (l : List Doc) (nid hash : Nat), chain_ok l → chain_ok (ingest_version l nid hash))
    ∧ (∀ l : List Doc, chain_ok l →
        l.Pairwise fun a b => a.versionNumber < b.versionNumber)
    ∧ (∀ i1 i2 i3 h1 h2 h3 : Nat, h1 ≠ h2 → h2 ≠ h3 →
        ingest_version (ingest_version (ingest_version [] i1 h1) i2 h2) i3 h3
          = [⟨i1, 1, none, h1⟩, ⟨i2, 2, some i1, h2⟩, ⟨i3, 3, some i2, h3⟩]) := by
  refine ⟨chain_ok_ingest, ?_, ?_⟩
  · intro l hok
    cases l with
    | nil => exact List.Pairwise.nil
    | cons d rest => exact chain_from_pairwise d rest hok.2.2
  · intro i1 i2 i3 h1 h2 h3 h12 h23
    simp [ingest_version, h12, h23]

/-- C8 witness: the chain theorem applied to three ingestions with distinct
concrete hashes. -/
theorem version_chain_invariant_witness :
    ingest_version (ingest_version (ingest_version [] 1 10) 2 20) 3 30
      = [⟨1, 1, none, 10⟩, ⟨2, 2, some 1, 20⟩, ⟨3, 3, some 2, 30⟩] :=
  version_chain_invariant.2.2 1 2 3 10 20 30 (by decide) (by decide)

/-- C9: the Footer returns null exactly when the pathname starts with
"/admin"; the pathname "/" renders the full home-page footer; every other
pathname renders the minimal footer containing the Privacy and Terms links. -/
theorem footer_routing (pathname : String) :
    (Footer pathname = none ↔ pathname.startsWith "/admin" = true)
    ∧ (pathname = "/" → Footer pathname = some ⟨true, []⟩)
    ∧ (pathname.startsWith "/admin" = false → pathname ≠ "/" →
        Footer pathname = some ⟨false, ["/privacy", "/terms"]⟩
        ∧ "/privacy" ∈ (Footer pathname).elim [] FooterRender.links
        ∧ "/terms" ∈ (Footer pathname).elim [] FooterRender.links) := by
  refine ⟨?_, ?_, ?_⟩
  · unfold Footer
    split
    · simp [*]
    · split
      · simp [*]
        decide
      · simp [*]
  · intro h
    subst h
    decide
  · intro hna hnh
    unfold Footer
    rw [if_neg (by simp [hna]), if_neg hnh]
    simp

/-- C9 witness: the routing theorem applied at concrete pathnames. -/
theorem footer_routing_witness :
    Footer "/" = some ⟨true, []⟩
    ∧ Footer "/docs" = some ⟨false, ["/privacy", "/terms"]⟩ :=
  ⟨(footer_routing "/").2.1 rfl,
   ((footer_routing "/docs").2.2 (by decide) (by decide)).1⟩

/-- C10 counterexample: with NEXT_PUBLIC_APP_URL unset and VERCEL_URL set to
the empty string, the claim predicts "https://" prepended to VERCEL_URL, but
the code's truthiness test yields the localhost default. -/
theorem app_url_empty_vercel_counterexample :
    appUrl none (some "") = "http://localhost:3000"
    ∧ appUrl none (some "") ≠ "https://" ++ "" :=
  ⟨rfl, by decide⟩

/-- C10 (amended): the metadata base URL equals NEXT_PUBLIC_APP_URL whenever
that variable is set; otherwise it equals "https://" prepended to VERCEL_URL
when that variable is set to a non-empty value; otherwise (VERCEL_URL unset
or empty) it equals "http://localhost:3000". -/
theorem app_url_of_env :
    (∀ (u : String) (v : Option String), appUrl (some u) v = u)
    ∧ (∀ v : String, v ≠ "" → appUrl none (some v) = "https://" ++ v)
    ∧ appUrl none (some "") = "http://localhost:3000"
    ∧ appUrl none none = "http://localhost:3000" := by
  refine ⟨fun u v => rfl, ?_, rfl, rfl⟩
  intro v hv
  simp [appUrl, hv]

/-- C10 witness: the amended theorem applied at a concrete non-empty
VERCEL_URL. -/
theorem app_url_of_env_witness :
    appUrl none (some "myapp.vercel.app") = "https://" ++ "myapp.vercel.app" :=
  app_url_of_env.2.1 "myapp.vercel.app" (by decide)

/-- Occurrences are exactly the append decompositions at the position. -/
lemma occurs_at_iff (t s : List Char) (i : Nat) :
    occurs_at t s i ↔ ∃ u v, t = u ++ s ++ v ∧ u.length = i := by
  constructor
  · rintro ⟨h1, h2⟩
    have hd : t.drop i = s ++ t.drop (i + s.length) := by
      conv_lhs => rw [← List.take_append_drop s.length (t.drop i)]
      rw [h2, List.drop_drop]
    have ht := List.take_append_drop i t
    rw [hd] at ht
    refine ⟨t.take i, t.drop (i + s.length), ?_, ?_⟩
    · rw [List.append_assoc]
      exact ht.symm
    · rw [List.length_take]
      exact Nat.min_eq_left (by omega)
  · rintro ⟨u, v, rfl, rfl⟩
    constructor
    · simp only [List.length_append]
      omega
    · rw [List.append_assoc, List.drop_left, List.take_left]

/-- Infix containment is existence of an occurrence. -/
lemma isInfix_iff_occurs (s t : List Char) : s <:+: t ↔ ∃ i, occurs_at t s i := by
  constructor
  · rintro ⟨u, v, huv⟩
    exact ⟨u.length, (occurs_at_iff t s u.length).2 ⟨u, v, huv.symm, rfl⟩⟩
  · rintro ⟨i, h⟩
    obtain ⟨u, v, ht, _⟩ := (occurs_at_iff t s i).1 h
    exact ⟨u, v, ht.symm⟩

/-- Every mask label starts with an opening bracket. -/
lemma mask_label_head (ft : FindingType) : ∃ l, mask_label ft = '[' :: l := by
  cases ft
  · exact ⟨['P', 'E', 'R', 'S', 'O', 'N', 'A', 'L', '_', 'D', 'A', 'T', 'A', ']'], rfl⟩
  · exact ⟨['F', 'I', 'N', 'A', 'N', 'C', 'I', 'A', 'L', '_', 'D', 'A', 'T', 'A', ']'], rfl⟩
  · exact ⟨['S', 'E', 'C', 'R', 'E', 'T', 'S', ']'], rfl⟩

/-- Every mask label ends with a closing bracket. -/
lemma mask_label_concat (ft : FindingType) : ∃ l, mask_label ft = l ++ [']'] := by
  cases ft
  · exact ⟨['[', 'P', 'E', 'R', 'S', 'O', 'N', 'A', 'L', '_', 'D', 'A', 'T', 'A'], rfl⟩
  · exact ⟨['[', 'F', 'I', 'N', 'A', 'N', 'C', 'I', 'A', 'L', '_', 'D', 'A', 'T', 'A'], rfl⟩
  · exact ⟨['[', 'S', 'E', 'C', 'R', 'E', 'T', 'S'], rfl⟩

/-- A nonempty prefix of a mask label followed by anything contains the
opening bracket. -/
lemma prefix_label_mem {ft : FindingType} {z q : List Char} (hq : q ≠ [])
    (h : q <+: mask_label ft ++ z) : '[' ∈ q := by
  obtain ⟨l, hl⟩ := mask_label_head ft
  rw [hl] at h
  cases q with
  | nil => exact absurd rfl hq
  | cons a q2 =>
      obtain ⟨w, hw⟩ := h
      simp only [List.cons_append] at hw
      injection hw with h1 _
      rw [h1]
      exact List.mem_cons_self _ _

/-- A nonempty suffix of a mask label contains the closing bracket. -/
lemma suffix_label_mem {ft : FindingType} {q : List Char} (hq : q ≠ [])
    (h : q <:+ mask_label ft) : ']' ∈ q := by
  obtain ⟨l, hl⟩ := mask_label_concat ft
  obtain ⟨u, hu⟩ := h
  rcases q.eq_nil_or_concat with rfl | ⟨q2, x, rfl⟩
  · exact absurd rfl hq
  · have h1 : (u ++ q2.concat x).getLast? = some x := by
      rw [List.concat_eq_append, ← List.append_assoc]
      exact List.getLast?_concat _
    rw [hu, hl, List.getLast?_concat] at h1
    injection h1 with h2
    rw [← h2]
    simp [List.concat_eq_append]

/-- Span well-formedness is antitone in the cursor. -/
lemma spans_wf_mono {text : List Char} {pos pos2 : Nat} {fs : List Finding}
    (hle : pos2 ≤ pos) (h : spans_wf text pos fs = true) :
    spans_wf text pos2 fs = true := by
  cases fs with
  | nil => rfl
  | cons f rest =>
      simp only [spans_wf, Bool.and_eq_true, decide_eq_true_eq] at h ⊢
      exact ⟨⟨le_trans hle h.1.1, h.1.2⟩, h.2⟩

/-- All well-formed spans start at or after the cursor. -/
lemma spans_wf_start {text : List Char} {pos : Nat} {fs : List Finding}
    (h : spans_wf text pos fs = true) : ∀ f ∈ fs, pos ≤ f.start := by
  induction fs generalizing pos with
  | nil =>
      intro f hf
      cases hf
  | cons g rest ih =>
      simp only [spans_wf, Bool.and_eq_true, decide_eq_true_eq] at h
      intro f hf
      rcases List.mem_cons.1 hf with rfl | hf2
      · exact h.1.1
      · have := ih h.2 f hf2
        omega

/-- All well-formed spans lie within the text. -/
lemma spans_wf_bounds {text : List Char} {pos : Nat} {fs : List Finding}
    (h : spans_wf text pos fs = true) : ∀ f ∈ fs, f.start + f.len ≤ text.length := by
  induction fs generalizing pos with
  | nil =>
      intro f hf
      cases hf
  | cons g rest ih =>
      simp only [spans_wf, Bool.and_eq_true, decide_eq_true_eq] at h
      intro f hf
      rcases List.mem_cons.1 hf with rfl | hf2
      · exact h.1.2
      · exact ih h.2 f hf2

/-- Span well-formedness is preserved by sublists. -/
lemma spans_wf_sublist {text : List Char} {fs fs2 : List Finding}
    (hsub : fs2.Sublist fs) :
    ∀ pos, spans_wf text pos fs = true → spans_wf text pos fs2 = true := by
  induction hsub with
  | slnil =>
      intro pos _
      rfl
  | cons g hsub ih =>
      intro pos h
      simp only [spans_wf, Bool.and_eq_true, decide_eq_true_eq] at h
      exact spans_wf_mono (le_trans h.1.1 (Nat.le_add_right _ _)) (ih _ h.2)
  | cons₂ g hsub ih =>
      intro pos h
      simp only [spans_wf, Bool.and_eq_true, decide_eq_true_eq] at h ⊢
      exact ⟨h.1, ih _ h.2⟩

/-- Core redaction property: if every occurrence of the secret at or after the
cursor is one of the masked spans, the secret has no bracket characters, is
nonempty and is not contained in a mask label, then the redacted output does
not contain the secret. -/
lemma redact_no_occurrence (text secret : List Char)
    (hne : secret ≠ []) (hlb : '[' ∉ secret) (hrb : ']' ∉ secret)
    (hlab : ∀ ft, ¬ secret <:+: mask_label ft) :
    ∀ (ms : List Finding) (pos : Nat),
      spans_wf text pos ms = true →
      (∀ i, pos ≤ i → occurs_at text secret i →
        ∃ g ∈ ms, g.start = i ∧ g.len = secret.length) →
      ¬ secret <:+: redact_from text pos ms := by
  intro ms
  induction ms with
  | nil =>
      intro pos _ hocc hinf
      obtain ⟨u, v, huv⟩ := hinf
      simp only [redact_from] at huv
      by_cases hpos : pos ≤ text.length
      · have ht := List.take_append_drop pos text
        rw [← huv] at ht
        have hocc0 : occurs_at text secret (pos + u.length) := by
          rw [occurs_at_iff]
          refine ⟨text.take pos ++ u, v, ?_, ?_⟩
          · conv_lhs => rw [← ht]
            simp [List.append_assoc]
          · rw [List.length_append, List.length_take]
            rw [Nat.min_eq_left hpos]
        obtain ⟨g, hg, _, _⟩ := hocc _ (Nat.le_add_right _ _) hocc0
        cases hg
      · have hd : text.drop pos = [] := List.drop_eq_nil_of_le (by omega)
        rw [hd] at huv
        exact hne (List.append_eq_nil.1 ((List.append_eq_nil.1 huv).1)).2
  | cons f rest ih =>
      intro pos hwf hocc hinf
      simp only [spans_wf, Bool.and_eq_true, decide_eq_true_eq] at hwf
      obtain ⟨⟨hposf, hbound⟩, hwfr⟩ := hwf
      have hslen : 0 < secret.length := List.length_pos.2 hne
      have hoccr : ∀ i, f.start + f.len ≤ i → occurs_at text secret i →
          ∃ g ∈ rest, g.start = i ∧ g.len = secret.length := by
        intro i hi ho
        obtain ⟨g, hg, hgs, hgl⟩ := hocc i (by omega) ho
        rcases List.mem_cons.1 hg with rfl | hg2
        · exfalso
          omega
        · exact ⟨g, hg2, hgs, hgl⟩
      have ihr : ¬ secret <:+: redact_from text (f.start + f.len) rest :=
        ih (f.start + f.len) hwfr hoccr
      have hrest_start : ∀ g ∈ rest, f.start + f.len ≤ g.start := spans_wf_start hwfr
      have gap : ∀ u w : List Char,
          (text.drop pos).take (f.start - pos) = u ++ (secret ++ w) → False := by
        intro u w hseg
        have hseglen : ((text.drop pos).take (f.start - pos)).length ≤ f.start - pos :=
          List.length_take_le _ _
        have hlen2 : u.length + secret.length ≤ f.start - pos := by
          rw [hseg] at hseglen
          simp only [List.length_append] at hseglen
          omega
        have hposle : pos ≤ text.length := by omega
        have harith : pos + (f.start - pos) = f.start := by omega
        have hdp : text.drop pos
            = (text.drop pos).take (f.start - pos) ++ text.drop f.start := by
          conv_lhs => rw [← List.take_append_drop (f.start - pos) (text.drop pos)]
          rw [List.drop_drop, harith]
        have htext : text = text.take pos ++ ((u ++ (secret ++ w)) ++ text.drop f.start) := by
          conv_lhs => rw [← List.take_append_drop pos text]
          rw [hdp, hseg]
        have hocc0 : occurs_at text secret (pos + u.length) := by
          rw [occurs_at_iff]
          refine ⟨text.take pos ++ u, w ++ text.drop f.start, ?_, ?_⟩
          · conv_lhs => rw [htext]
            simp [List.append_assoc]
          · rw [List.length_append, List.length_take, Nat.min_eq_left hposle]
        obtain ⟨g, hg, hgs, hgl⟩ := hocc (pos + u.length) (by omega) hocc0
        rcases List.mem_cons.1 hg with rfl | hg2
        · omega
        · have := hrest_start g hg2
          omega
      obtain ⟨a, b, hab⟩ := hinf
      simp only [redact_from] at hab
      rw [List.append_assoc a secret b, List.append_assoc ((text.drop pos).take (f.start - pos))
        (mask_label f.ftype) (redact_from text (f.start + f.len) rest)] at hab
      rw [List.append_eq_append_iff] at hab
      rcases hab with ⟨a2, hseg, hx⟩ | ⟨c2, _, hx⟩
      · rw [List.append_eq_append_iff] at hx
        rcases hx with ⟨p, hp2, _⟩ | ⟨q, hq2, hlr⟩
        · exact gap a p (by rw [hseg, hp2])
        · cases q with
          | nil =>
              have hsa : secret = a2 := by simpa using hq2
              exact gap a [] (by rw [hseg, ← hsa]; simp)
          | cons q0 qt =>
              have hpre : (q0 :: qt) <+: mask_label f.ftype
                  ++ redact_from text (f.start + f.len) rest := ⟨b, hlr.symm⟩
              have hm : '[' ∈ q0 :: qt := prefix_label_mem (by simp) hpre
              exact hlb (by rw [hq2]; exact List.mem_append_right _ hm)
      · rw [List.append_eq_append_iff] at hx
        rcases hx with ⟨p, _, hrout⟩ | ⟨q, hq2, hsb⟩
        · exact ihr ⟨p, b, by rw [hrout, List.append_assoc]⟩
        · rw [List.append_eq_append_iff] at hsb
          rcases hsb with ⟨p, hp2, _⟩ | ⟨r, hr2, hrout⟩
          · exact hlab f.ftype ⟨c2, p, by rw [hq2, hp2, List.append_assoc]⟩
          · cases q with
            | nil =>
              have hs : secret = r := by simpa using hr2
              refine ihr ⟨[], b, ?_⟩
              simp only [List.nil_append]
              rw [hs, hrout]
            | cons q0 qt =>
              have hsuf : (q0 :: qt) <:+ mask_label f.ftype := ⟨c2, hq2.symm⟩
              have hm : ']' ∈ q0 :: qt := suffix_label_mem (by simp) hsuf
              exact hrb (by rw [hr2]; exact List.mem_append_left _ hm)

/-- Redaction of a list of spans containing `f` splits around the mask label
of `f`. -/
lemma redact_from_split (text : List Char) :
    ∀ (msa : List Finding) (f : Finding) (msb : List Finding) (pos : Nat),
      ∃ pre suf, redact_from text pos (msa ++ f :: msb)
        = pre ++ mask_label f.ftype ++ suf := by
  intro msa
  induction msa with
  | nil =>
      intro f msb pos
      exact ⟨(text.drop pos).take (f.start - pos),
        redact_from text (f.start + f.len) msb, rfl⟩
  | cons g msa ih =>
      intro f msb pos
      obtain ⟨pre, suf, h⟩ := ih f msb (g.start + g.len)
      refine ⟨(text.drop pos).take (g.start - pos) ++ mask_label g.ftype ++ pre, suf, ?_⟩
      simp only [List.cons_append, redact_from, List.append_eq]
      rw [h]
      simp [List.append_assoc]

/-- C4 counterexample: a policy with mask_secrets: true that also sets
use_summaries returns the summary view, whose text is not the redaction —
here it contains the original secret span and no [SECRETS] label, refuting
the claim as stated. -/
theorem mask_secrets_summary_counterexample :
    policy_allows c4_sum_policy c4_sum_chunk = true
    ∧ c4_sum_policy.maskSecrets = true
    ∧ (∃ f ∈ c4_sum_chunk.findings, f.ftype = FindingType.SECRETS)
    ∧ (∃ t, (evaluate_access [c4_sum_policy] c4_sum_chunk).content = some t
        ∧ span_text c4_sum_chunk.text ⟨FindingType.SECRETS, Level.HIGH, 0, 10⟩ <:+: t
        ∧ ¬ mask_label FindingType.SECRETS <:+: t) := by
  decide

/-- C4 (amended): for a chunk with a SECRETS finding and an agent one of
whose policies allows the chunk and sets mask_secrets, provided no allowing
policy yields the summary view, the findings spans are well-formed, every
occurrence of the secret span text is flagged as a finding span, and the
secret is a realistic token (nonempty via at least 10 characters, no square
brackets, not contained in a mask label): the returned view is redacted, its
text never contains the original secret span, and the span is replaced with
the [SECRETS] label. -/
theorem mask_secrets_redaction
    (pols : List Policy) (c : Chunk) (p : Policy) (f0 : Finding)
    (hp : p ∈ pols) (hallow : policy_allows p c = true) (hsec : p.maskSecrets = true)
    (hf0 : f0 ∈ c.findings) (hft : f0.ftype = FindingType.SECRETS)
    (hnosum : ∀ q ∈ pols, policy_allows q c = true → q.useSummaries = false)
    (hwf : spans_wf c.text 0 c.findings = true)
    (hlen : 10 ≤ f0.len)
    (hlb : '[' ∉ span_text c.text f0) (hrb : ']' ∉ span_text c.text f0)
    (hlab : ∀ ft, ¬ span_text c.text f0 <:+: mask_label ft)
    (hocc : ∀ i, occurs_at c.text (span_text c.text f0) i →
      ∃ g ∈ c.findings, g.ftype = FindingType.SECRETS ∧ g.start = i
        ∧ g.len = (span_text c.text f0).length) :
    ∃ t, (evaluate_access pols c).content = some t
      ∧ (evaluate_access pols c).viewType = some ViewType.redacted
      ∧ ¬ span_text c.text f0 <:+: t
      ∧ ∃ pre suf, t = pre ++ mask_label FindingType.SECRETS ++ suf := by
  have hpa : p ∈ allowing_policies pols c := mem_allowing_policies hp hallow
  have hne : pols.isEmpty = false := by
    cases pols with
    | nil => cases hp
    | cons x xs => rfl
  have hane : (allowing_policies pols c).isEmpty = false := by
    cases hh : allowing_policies pols c with
    | nil => rw [hh] at hpa; cases hpa
    | cons a as => rfl
  have hmsec : ((allowing_policies pols c).any fun q => q.maskSecrets) = true :=
    List.any_eq_true.2 ⟨p, hpa, hsec⟩
  have hsumm : ((allowing_policies pols c).any fun q => q.useSummaries) = false := by
    rw [List.any_eq_false]
    intro q hq
    have hq2 := List.mem_filter.1 hq
    simp [hnosum q hq2.1 hq2.2]
  have hf0m : f0 ∈ masked_findings ((allowing_policies pols c).any fun q => q.maskPii)
      ((allowing_policies pols c).any fun q => q.maskSecrets) c.findings :=
    List.mem_filter.2 ⟨hf0, by simp [hmsec, hft]⟩
  have hmne : (masked_findings ((allowing_policies pols c).any fun q => q.maskPii)
      ((allowing_policies pols c).any fun q => q.maskSecrets) c.findings).isEmpty
        = false := by
    cases hh : masked_findings ((allowing_policies pols c).any fun q => q.maskPii)
        ((allowing_policies pols c).any fun q => q.maskSecrets) c.findings with
    | nil => rw [hh] at hf0m; cases hf0m
    | cons a as => rfl
  have heval : evaluate_access pols c
      = Decision.allowed ViewType.redacted (redact_text c.text
          (masked_findings ((allowing_policies pols c).any fun q => q.maskPii)
            ((allowing_policies pols c).any fun q => q.maskSecrets) c.findings)) := by
    simp only [evaluate_access, hne, hane, hmne, hsumm, Bool.false_and,
      Bool.false_eq_true, if_false]
  have hwfm : spans_wf c.text 0 (masked_findings
      ((allowing_policies pols c).any fun q => q.maskPii)
      ((allowing_policies pols c).any fun q => q.maskSecrets) c.findings) = true :=
    spans_wf_sublist (List.filter_sublist _) 0 hwf
  have hoccm : ∀ i, 0 ≤ i → occurs_at c.text (span_text c.text f0) i →
      ∃ g ∈ masked_findings ((allowing_policies pols c).any fun q => q.maskPii)
          ((allowing_policies pols c).any fun q => q.maskSecrets) c.findings,
        g.start = i ∧ g.len = (span_text c.text f0).length := by
    intro i _ ho
    obtain ⟨g, hg, hgt, hgs, hgl⟩ := hocc i ho
    exact ⟨g, List.mem_filter.2 ⟨hg, by simp [hmsec, hgt]⟩, hgs, hgl⟩
  have hbnd := spans_wf_bounds hwf f0 hf0
  have hslen : (span_text c.text f0).length = f0.len := by
    simp only [span_text, List.length_take, List.length_drop]
    omega
  have hsne : span_text c.text f0 ≠ [] := by
    intro hnil
    rw [hnil] at hslen
    simp at hslen
    omega
  have hnin := redact_no_occurrence c.text (span_text c.text f0) hsne hlb hrb hlab
    (masked_findings ((allowing_policies pols c).any fun q => q.maskPii)
      ((allowing_policies pols c).any fun q => q.maskSecrets) c.findings)
    0 hwfm hoccm
  obtain ⟨msa, msb, hsplit⟩ := List.append_of_mem hf0m
  obtain ⟨pre, suf, hps⟩ := redact_from_split c.text msa f0 msb 0
  refine ⟨redact_text c.text
      (masked_findings ((allowing_policies pols c).any fun q => q.maskPii)
        ((allowing_policies pols c).any fun q => q.maskSecrets) c.findings),
    by rw [heval]; rfl, by rw [heval]; rfl, hnin, pre, suf, ?_⟩
  simp only [redact_text]
  rw [hsplit, hps, hft]

/-- C4 witness: the amended redaction theorem applied to a concrete chunk and
policy. -/
theorem mask_secrets_redaction_witness :
    ∃ t, (evaluate_access [c4_policy] c4_chunk).content = some t
      ∧ (evaluate_access [c4_policy] c4_chunk).viewType = some ViewType.redacted
      ∧ ¬ span_text c4_chunk.text ⟨FindingType.SECRETS, Level.HIGH, 0, 10⟩ <:+: t
      ∧ ∃ pre suf, t = pre ++ mask_label FindingType.SECRETS ++ suf :=
  mask_secrets_redaction [c4_policy] c4_chunk c4_policy
    ⟨FindingType.SECRETS, Level.HIGH, 0, 10⟩
    (by decide) (by decide) (by decide) (by decide) (by decide)
    (by decide) (by decide) (by decide) (by decide) (by decide) (by decide)
    (by
      intro i hoc
      have h1 : i + (span_text c4_chunk.text
          ⟨FindingType.SECRETS, Level.HIGH, 0, 10⟩).length ≤ c4_chunk.text.length :=
        hoc.1
      have hi : i = 0 := by
        simp only [span_text, c4_chunk, c4_secret, List.length_take, List.length_drop,
          List.length_cons, List.length_nil] at h1
        omega
      subst hi
      exact ⟨⟨FindingType.SECRETS, Level.HIGH, 0, 10⟩, by decide, by decide, by decide,
        by decide⟩)

end Topos
